import Mathlib

/-!
Verification of the persistence-layer migration catalog and of the
migration-engine contract it is handed to.

The catalog is embedded from `src/src-tauri/src/db/main.rs`: the function
`migrations()` returns a vector of `Migration` records for the
`tauri_plugin_sql` engine.  The SQL bodies are loaded at compile time via
`include_str!` from files that are not part of the reviewed sources; each
body is represented here by its include path (the claims under study never
inspect body contents, only that bodies are fixed data).
-/

/-- Direction of a migration, as in `tauri_plugin_sql::MigrationKind`. -/
inductive MigrationKind where
  | Up
  | Down
deriving DecidableEq

/-- One migration record, as in `tauri_plugin_sql::Migration`. -/
structure Migration where
  version : Nat
  description : String
  sql : String
  kind : MigrationKind
deriving DecidableEq

/-- Embedding of `migrations()` from `src/src-tauri/src/db/main.rs`: the full
migration catalog of this build, in declaration order. -/
def migrations : List Migration :=
  [ ⟨1, "create_system_prompts_table", "migrations/system-prompts.sql", .Up⟩,
    ⟨2, "create_chat_history_tables", "migrations/chat-history.sql", .Up⟩,
    ⟨3, "create_api_usage_table", "migrations/api-usage.sql", .Up⟩,
    ⟨4, "add_audio_seconds_to_api_usage", "migrations/api-usage-v2.sql", .Up⟩,
    ⟨5, "remove_fk_from_api_usage", "migrations/api-usage-v3.sql", .Up⟩,
    ⟨6, "create_meeting_context_tables", "migrations/meeting-context.sql", .Up⟩ ]

/-- A call to the accessor: the Rust function takes no input, so a call is a
function of the trivial argument. -/
def migrationsCall : Unit → List Migration := fun _ => migrations

/-- C1: `migrations()` returns the versions 1,2,3,4,5,6, strictly ascending,
contiguous and starting at 1, oldest first. -/
theorem migrations_versions_ascending_contiguous :
    migrations.map Migration.version = [1, 2, 3, 4, 5, 6] ∧
    migrations.map Migration.version = List.range' 1 migrations.length ∧
    List.Chain' (· < ·) (migrations.map Migration.version) := by
  refine ⟨rfl, rfl, ?_⟩
  show List.Chain' (· < ·) [1, 2, 3, 4, 5, 6]
  simp [List.chain'_cons]

/-- C8: every record in the catalog is a forward ("up") migration; no record
is a down/rollback migration. -/
theorem migrations_all_forward :
    migrations.map Migration.kind = List.replicate 6 MigrationKind.Up := rfl

/-- C9: the accessor is pure and deterministic: any two calls return the same
sequence (same versions, descriptions, bodies and kinds, in order), namely the
fixed catalog. -/
theorem migrations_deterministic :
    ∀ a b : Unit, migrationsCall a = migrationsCall b ∧ migrationsCall a = migrations :=
  fun _ _ => ⟨rfl, rfl⟩

/-- C10: the description strings in the catalog are pairwise distinct and
non-empty, so a description uniquely identifies its record's version. -/
theorem migrations_descriptions_distinct_nonempty :
    (migrations.map Migration.description).Nodup ∧
    migrations.all (fun m => !m.description.isEmpty) = true := by
  exact ⟨by decide, rfl⟩

/-!
### The Migration Engine (external collaborator) and catalog construction

The engine and the catalog-construction validation are not among the reviewed
sources (the engine is an external collaborator; the catalog in `src` is a
literal vector).  They are modelled from the spec below.
-/

/-- Modelled from the spec: the per-store state the Migration Engine
manipulates — the Applied-Version Marker (highest version successfully
applied) and, abstractly, the effects accumulated in the store, recorded as
the list of versions whose record bodies have taken effect, in application
order. -/
structure Store where
  marker : Nat
  applied : List Nat
deriving DecidableEq

/-- Modelled from the spec: applying one record inside its protective scope.
The oracle `fails` says whether a record body fails against the live store.
On success the whole body takes effect and the marker is advanced to the
record's version; on failure no effect of the record is visible. -/
def applyRecord (fails : Nat → Bool) (s : Store) (m : Migration) : Option Store :=
  if fails m.version then none
  else some ⟨m.version, s.applied ++ [m.version]⟩

/-- Outcome of a reconciliation run of the Migration Engine. -/
inductive RunResult where
  | ok (s : Store)
  | failed (s : Store) (version : Nat)
  | skew (s : Store)
deriving DecidableEq

/-- Modelled from the spec: apply records in order, stopping at the first
mid-application failure and reporting the store as it stands then. -/
def applyAll (fails : Nat → Bool) : Store → List Migration → RunResult
  | s, [] => .ok s
  | s, m :: rest =>
    match applyRecord fails s m with
    | some s2 => applyAll fails s2 rest
    | none => .failed s m.version

/-- Maximum version present in a catalog (0 for an empty catalog). -/
def maxVersion (catalog : List Migration) : Nat :=
  catalog.foldr (fun m acc => max m.version acc) 0

/-- The sub-sequence of catalog records with version greater than the
marker. -/
def pending (catalog : List Migration) (marker : Nat) : List Migration :=
  catalog.filter (fun m => marker < m.version)

/-- Modelled from the spec: on startup the engine reads the marker, fails
fast on version skew (marker beyond the catalog maximum), and otherwise
applies the pending records in ascending order. -/
def reconcile (fails : Nat → Bool) (catalog : List Migration) (s : Store) : RunResult :=
  if maxVersion catalog < s.marker then .skew s
  else applyAll fails s (pending catalog s.marker)

/-- C2: each record is atomic: on success its whole body takes effect and the
marker is advanced to its version before the next record begins; a
mid-application failure leaves the store exactly at the last fully-applied
version, with no partial effect of the failing record visible. -/
theorem applyAll_record_atomic (fails : Nat → Bool) :
    (∀ (s : Store) (m : Migration) (rest : List Migration),
      fails m.version = false →
      applyAll fails s (m :: rest) =
        applyAll fails ⟨m.version, s.applied ++ [m.version]⟩ rest) ∧
    (∀ (s s2 : Store) (ms : List Migration) (v : Nat),
      applyAll fails s ms = .failed s2 v →
      fails v = true ∧
      ∃ pre m post, ms = pre ++ m :: post ∧ m.version = v ∧
        (∀ m2 ∈ pre, fails m2.version = false) ∧
        s2.applied = s.applied ++ pre.map Migration.version ∧
        s2.marker = (pre.map Migration.version).getLastD s.marker) := by
  constructor
  · intro s m rest h
    simp [applyAll, applyRecord, h]
  · intro s s2 ms v
    induction ms generalizing s with
    | nil =>
      intro h
      simp [applyAll] at h
    | cons m rest ih =>
      intro h
      by_cases hf : fails m.version = true
      · simp [applyAll, applyRecord, hf] at h
        obtain ⟨hs, hv⟩ := h
        subst hs
        subst hv
        exact ⟨hf, [], m, rest, rfl, rfl, by simp, by simp, rfl⟩
      · simp only [Bool.not_eq_true] at hf
        simp only [applyAll, applyRecord, hf, Bool.false_eq_true, if_false] at h
        obtain ⟨hfv, pre, m2, post, hms, hver, hpre, happ, hmark⟩ := ih _ h
        refine ⟨hfv, m :: pre, m2, post, by rw [hms, List.cons_append], hver, ?_, ?_, ?_⟩
        · intro m3 hm3
          rcases List.mem_cons.mp hm3 with h1 | h2
          · rw [h1]; exact hf
          · exact hpre m3 h2
        · rw [happ]; simp
        · rw [List.map_cons, List.getLastD_cons]; exact hmark

/-- Failure oracle that fails exactly version 3, used as a concrete input. -/
def failsAt3 : Nat → Bool := fun v => v == 3

/-- Witness for C2 at a concrete run: applying the full catalog to an empty
store with version 3 failing stops with versions 1 and 2 applied and the
marker at 2. -/
theorem applyAll_record_atomic_witness :
    applyAll failsAt3 ⟨0, []⟩ migrations = .failed ⟨2, [1, 2]⟩ 3 ∧
    (failsAt3 3 = true ∧
      ∃ pre m post, migrations = pre ++ m :: post ∧ m.version = 3 ∧
        (∀ m2 ∈ pre, failsAt3 m2.version = false) ∧
        [1, 2] = ([] : List Nat) ++ pre.map Migration.version ∧
        (2 : Nat) = (pre.map Migration.version).getLastD 0) :=
  ⟨rfl, (applyAll_record_atomic failsAt3).2 ⟨0, []⟩ ⟨2, [1, 2]⟩ migrations 3 rfl⟩

/-- Mapping versions commutes with selecting the pending records. -/
theorem map_version_pending (k : Nat) (l : List Migration) :
    (pending l k).map Migration.version =
      (l.map Migration.version).filter (fun v => k < v) := by
  induction l with
  | nil => rfl
  | cons m rest ih =>
    simp only [pending, List.filter_cons, List.map_cons] at *
    by_cases h : k < m.version
    · simp [h, ih]
    · simp [h, ih]

/-- Selecting the versions above `k` from `1..n` yields `k+1..n`. -/
theorem filter_range'_gt (k n : Nat) (hk : k ≤ n) :
    (List.range' 1 n).filter (fun v => k < v) = List.range' (k + 1) (n - k) := by
  have hsplit := List.range'_append 1 k (n - k) 1
  rw [Nat.one_mul, Nat.sub_add_cancel hk] at hsplit
  rw [← hsplit, List.filter_append]
  have h1 : (List.range' 1 k).filter (fun v => decide (k < v)) = [] := by
    rw [List.filter_eq_nil_iff]
    intro a ha
    have := (List.mem_range'_1.mp ha).2
    simp only [decide_eq_true_eq]
    omega
  have h2 : (List.range' (1 + k) (n - k)).filter (fun v => decide (k < v)) =
      List.range' (1 + k) (n - k) := by
    rw [List.filter_eq_self]
    intro a ha
    have := (List.mem_range'_1.mp ha).1
    simp only [decide_eq_true_eq]
    omega
  rw [h1, h2, List.nil_append, Nat.add_comm 1 k]

/-- Last element of a nonempty `range'`. -/
theorem getLastD_range' : ∀ (m a d : Nat), m ≠ 0 →
    (List.range' a m).getLastD d = a + m - 1 := by
  intro m
  induction m with
  | zero => intro a d h; exact absurd rfl h
  | succ m2 ih =>
    intro a d _
    rw [List.range'_succ]
    cases m2 with
    | zero => simp
    | succ m3 =>
      rw [List.getLastD_cons, ih (a + 1) a (Nat.succ_ne_zero m3)]
      omega

/-- A run in which no record body fails applies every record, leaves the
marker at the last record's version, and appends exactly the applied
versions. -/
theorem applyAll_all_ok (fails : Nat → Bool) (hok : ∀ v, fails v = false) :
    ∀ (ms : List Migration) (s : Store),
      applyAll fails s ms =
        .ok ⟨(ms.map Migration.version).getLastD s.marker,
             s.applied ++ ms.map Migration.version⟩ := by
  intro ms
  induction ms with
  | nil => intro s; simp [applyAll]
  | cons m rest ih =>
    intro s
    simp only [applyAll, applyRecord, hok m.version, Bool.false_eq_true, if_false]
    rw [ih ⟨m.version, s.applied ++ [m.version]⟩]
    rw [List.map_cons, List.getLastD_cons, List.append_assoc]
    rfl

/-- Every version in a catalog is bounded by the catalog maximum. -/
theorem version_le_maxVersion :
    ∀ (catalog : List Migration), ∀ m ∈ catalog, m.version ≤ maxVersion catalog := by
  intro catalog
  induction catalog with
  | nil => intro m h; cases h
  | cons m2 rest ih =>
    intro m h
    have hmax : maxVersion (m2 :: rest) = max m2.version (maxVersion rest) := rfl
    rcases List.mem_cons.mp h with h1 | h2
    · rw [h1, hmax]; exact le_max_left _ _
    · rw [hmax]; exact le_trans (ih m h2) (le_max_right _ _)

/-- Folding `max` over `a..a+m-1` yields the last element. -/
theorem foldr_max_range' : ∀ (m a : Nat), m ≠ 0 →
    (List.range' a m).foldr max 0 = a + m - 1 := by
  intro m
  induction m with
  | zero => intro a h; exact absurd rfl h
  | succ m2 ih =>
    intro a _
    rw [List.range'_succ]
    cases m2 with
    | zero => simp
    | succ m3 =>
      rw [List.foldr_cons, ih (a + 1) (Nat.succ_ne_zero m3)]
      omega

/-- A catalog whose versions are `1..n` has maximum version `n`. -/
theorem maxVersion_eq (catalog : List Migration) (n : Nat)
    (hcat : catalog.map Migration.version = List.range' 1 n) (hn : n ≠ 0) :
    maxVersion catalog = n := by
  have h1 : maxVersion catalog = (catalog.map Migration.version).foldr max 0 := by
    rw [maxVersion, List.foldr_map]
  rw [h1, hcat, foldr_max_range' n 1 hn]
  omega

/-- C3: a store at marker `k` reconciled against a catalog with versions
`1..n` (`k < n`) applies exactly the records `k+1..n`, in ascending version
order — no record with version at most `k` is reapplied — and ends with the
marker at `n`. -/
theorem reconcile_resumes_gap (fails : Nat → Bool) (catalog : List Migration)
    (s : Store) (n : Nat)
    (hcat : catalog.map Migration.version = List.range' 1 n)
    (hk : s.marker < n)
    (hok : ∀ v, fails v = false) :
    (pending catalog s.marker).map Migration.version =
      List.range' (s.marker + 1) (n - s.marker) ∧
    reconcile fails catalog s =
      .ok ⟨n, s.applied ++ List.range' (s.marker + 1) (n - s.marker)⟩ := by
  have hpend : (pending catalog s.marker).map Migration.version =
      List.range' (s.marker + 1) (n - s.marker) := by
    rw [map_version_pending, hcat]
    exact filter_range'_gt s.marker n (le_of_lt hk)
  have hmax : maxVersion catalog = n := maxVersion_eq catalog n hcat (by omega)
  have hns : ¬ (maxVersion catalog < s.marker) := by omega
  refine ⟨hpend, ?_⟩
  rw [reconcile, if_neg hns]
  rw [applyAll_all_ok fails hok (pending catalog s.marker) s, hpend]
  have hlast : (List.range' (s.marker + 1) (n - s.marker)).getLastD s.marker = n := by
    rw [getLastD_range' (n - s.marker) (s.marker + 1) s.marker (by omega)]
    omega
  rw [hlast]

/-- Failure oracle in which no record body fails. -/
def allOk : Nat → Bool := fun _ => false

/-- Witness for C3: a store at marker 2 reconciled against the shipped
catalog applies exactly versions 3,4,5,6 and ends at marker 6. -/
theorem reconcile_resumes_gap_witness :
    migrations.map Migration.version = List.range' 1 6 ∧
    (2 : Nat) < 6 ∧
    ((pending migrations 2).map Migration.version = List.range' 3 4 ∧
      reconcile allOk migrations ⟨2, [1, 2]⟩ = .ok ⟨6, [1, 2] ++ List.range' 3 4⟩) :=
  ⟨rfl, by decide,
    reconcile_resumes_gap allOk migrations ⟨2, [1, 2]⟩ 6 rfl (by decide) (fun _ => rfl)⟩

/-- C4: a store whose marker strictly exceeds the catalog's maximum version
is a version-skew deployment error: reconciliation fails fast and applies
nothing, leaving the store unchanged. -/
theorem reconcile_skew_fails_fast (fails : Nat → Bool) (catalog : List Migration)
    (s : Store) (h : maxVersion catalog < s.marker) :
    reconcile fails catalog s = .skew s := by
  rw [reconcile, if_pos h]

/-- Witness for C4: marker 10 against the shipped catalog (maximum 6) fails
fast with nothing applied. -/
theorem reconcile_skew_fails_fast_witness :
    maxVersion migrations < 10 ∧
    reconcile allOk migrations ⟨10, [1, 2, 3, 4, 5, 6]⟩ = .skew ⟨10, [1, 2, 3, 4, 5, 6]⟩ :=
  ⟨by decide,
    reconcile_skew_fails_fast allOk migrations ⟨10, [1, 2, 3, 4, 5, 6]⟩ (by decide)⟩

/-- C5: reconciling a store already at the catalog's maximum version is a
no-op: no record is reapplied and the store, marker included, is returned
unchanged. -/
theorem reconcile_at_max_noop (fails : Nat → Bool) (catalog : List Migration)
    (s : Store) (h : s.marker = maxVersion catalog) :
    reconcile fails catalog s = .ok s := by
  have hns : ¬ (maxVersion catalog < s.marker) := by omega
  rw [reconcile, if_neg hns]
  have hpend : pending catalog s.marker = [] := by
    simp only [pending]
    rw [List.filter_eq_nil_iff]
    intro m hm
    have := version_le_maxVersion catalog m hm
    simp only [decide_eq_true_eq]
    omega
  rw [hpend]
  rfl

/-- Witness for C5: a store at marker 6 against the shipped catalog is left
unchanged. -/
theorem reconcile_at_max_noop_witness :
    (6 : Nat) = maxVersion migrations ∧
    reconcile allOk migrations ⟨6, [1, 2, 3, 4, 5, 6]⟩ = .ok ⟨6, [1, 2, 3, 4, 5, 6]⟩ :=
  ⟨by decide,
    reconcile_at_max_noop allOk migrations ⟨6, [1, 2, 3, 4, 5, 6]⟩ (by decide)⟩

/-- Modelled from the spec: the only transition of the per-store migration
state machine is apply-next-record, moving the marker from `v` to `v + 1`
while a next record exists. -/
def MigStep (maxV v v2 : Nat) : Prop := v < maxV ∧ v2 = v + 1

/-- Modelled from the spec: marker values reachable from the Uninitialized
state (marker 0) by apply-next-record transitions. -/
inductive MigReachable (maxV : Nat) : Nat → Prop where
  | init : MigReachable maxV 0
  | step {v v2 : Nat} : MigReachable maxV v → MigStep maxV v v2 → MigReachable maxV v2

/-- C6: in every reachable state of the per-store migration state machine the
marker never exceeds the catalog's maximum version, and the only transition,
apply-next-record, strictly increases the marker from `v` to `v + 1`, so the
marker never regresses. -/
theorem marker_bounded_monotone :
    (∀ v, MigReachable (maxVersion migrations) v → v ≤ maxVersion migrations) ∧
    (∀ v v2, MigStep (maxVersion migrations) v v2 → v < v2 ∧ v2 = v + 1) := by
  constructor
  · intro v h
    induction h with
    | init => exact Nat.zero_le _
    | step hr hs ih =>
      obtain ⟨ha, hb⟩ := hs
      omega
  · intro v v2 hs
    obtain ⟨ha, hb⟩ := hs
    omega

/-- Witness for C6: marker 1 is reachable and bounded by the catalog maximum;
the step from 0 is exactly to 1. -/
theorem marker_bounded_monotone_witness :
    (1 : Nat) ≤ maxVersion migrations ∧ ((0 : Nat) < 1 ∧ (1 : Nat) = 0 + 1) :=
  ⟨marker_bounded_monotone.1 1 (MigReachable.step MigReachable.init ⟨by decide, rfl⟩),
   marker_bounded_monotone.2 0 1 ⟨by decide, rfl⟩⟩

/-- Error message produced when catalog validation rejects a catalog. -/
def catalogDefectMsg : String :=
  "catalog defect: versions must be contiguous starting at 1, without duplicates"

/-- Modelled from the spec: construction-time validity of a catalog — its
versions are exactly `1..n` in order, which rules out duplicates, gaps and a
wrong starting version. -/
def validVersions (records : List Migration) : Bool :=
  records.map Migration.version == List.range' 1 records.length

/-- Modelled from the spec: building a Catalog validates the versions and
fails fast, before any store is touched. -/
def buildCatalog (records : List Migration) : Except String (List Migration) :=
  if validVersions records then .ok records else .error catalogDefectMsg

/-- C7: a catalog with duplicate or non-contiguous version numbers is
rejected at construction time, before any store is touched; the shipped
catalog passes construction. -/
theorem catalog_defect_rejected :
    (∀ records : List Migration,
      (¬ (records.map Migration.version).Nodup ∨
        records.map Migration.version ≠ List.range' 1 records.length) →
      buildCatalog records = .error catalogDefectMsg) ∧
    buildCatalog migrations = .ok migrations := by
  constructor
  · intro records h
    have hne : records.map Migration.version ≠ List.range' 1 records.length := by
      rcases h with h1 | h2
      · intro heq
        exact h1 (heq ▸ List.nodup_range' 1 records.length 1 Nat.one_pos)
      · exact h2
    have hval : validVersions records = false := by
      show (records.map Migration.version == List.range' 1 records.length) = false
      exact beq_eq_false_iff_ne.mpr hne
    rw [buildCatalog, hval]
    rfl
  · rfl

/-- A defective catalog with a duplicated version number, used as a concrete
input. -/
def dupCatalog : List Migration :=
  [ ⟨1, "first", "", .Up⟩, ⟨1, "again", "", .Up⟩ ]

/-- Witness for C7: the two-record catalog that declares version 1 twice is
rejected at construction. -/
theorem catalog_defect_rejected_witness :
    (¬ (dupCatalog.map Migration.version).Nodup ∨
      dupCatalog.map Migration.version ≠ List.range' 1 dupCatalog.length) ∧
    buildCatalog dupCatalog = .error catalogDefectMsg :=
  ⟨Or.inl (by decide), catalog_defect_rejected.1 dupCatalog (Or.inl (by decide))⟩

/-- Witness for C9: two concrete calls of the accessor agree and equal the
fixed catalog. -/
theorem migrations_deterministic_witness :
    migrationsCall () = migrationsCall () ∧ migrationsCall () = migrations :=
  migrations_deterministic () ()
